import Mathlib

/-!
Verification of `repo2text` (repo2text/repo2text.py): a tool that serializes a
directory tree into a single text document (project tree + per-file contents).

The development shallowly embeds the three components of the program:

* the document assembler (`is_binary_file`, `build_final_string` and the
  console printing helpers),
* the ignore-pattern engine (`load_gitignore`, built on the `pathspec`
  library's gitwildmatch patterns and its last-match-wins `match_file`),
* the tree walker (`build_project_tree`, `collect_files`, built on
  `os.walk` with in-place directory pruning).

File system state is modelled explicitly: byte contents and text read
outcomes as functions from paths, and the directory tree as an inductive
tree of named entries.  Console output (colorama printing) is modelled as an
accumulated list of printed strings, parameterized by a `Colors` record that
stands for the colorama escape codes.
-/

namespace Repo2Text

/-- Python `'\n'.join(l)`: concatenation of the elements with a separator
between consecutive elements (empty string on the empty list). -/
def pyJoin (sep : String) : List String → String
  | [] => ""
  | [x] => x
  | x :: y :: xs => x ++ sep ++ pyJoin sep (y :: xs)

/-- The colorama escape codes used by the printing helpers
(`colorama.Fore.GREEN`, …, `colorama.Style.RESET_ALL`).  The document
builder is parameterized by these so that we can state that they never leak
into the returned document. -/
structure Colors where
  green : String
  magenta : String
  white : String
  yellow : String
  cyan : String
  red : String
  reset : String

/-- File-system content model for the assembler.  `bytesOf p` is the raw
byte content of the file at path `p` (`none`: opening/reading in `'rb'` mode
raises).  `textOf p` is the outcome of `open(p, 'r', encoding='utf-8',
errors='replace').readlines()`: `.ok lines` gives the list of lines (each
line keeps its trailing newline, as `readlines` does), `.error e` means the
read raised an exception whose string rendering is `e`. -/
structure FileSys where
  bytesOf : String → Option (List Nat)
  textOf : String → Except String (List String)

/-- Embedding of `is_binary_file`: read the first 1024 bytes and classify as
binary if a null byte occurs there; a file that cannot be opened for the
check is also classified binary. -/
def is_binary_file (fs : FileSys) (file_path : String) : Bool :=
  match fs.bytesOf file_path with
  | some content => (content.take 1024).contains 0
  | none => true

/-- Python `s.rstrip('\n')`: remove all trailing newline characters. -/
def rstripNl (s : String) : String :=
  ⟨(s.data.reverse.dropWhile (fun c => c = '\n')).reverse⟩

/-- The content handed to `print_truncated_content` in `build_final_string`:
`''.join(lines[:20]).rstrip('\n')`. -/
def truncated_content (lines : List String) : String :=
  rstripNl (String.join (lines.take 20))

/-- The uncolored per-file header written into the document:
`f"### File: {file}\n### Code block below:\n"`. -/
def fileHeader (file : String) : String :=
  "### File: " ++ file ++ "\n### Code block below:\n"

/-- The document section appended for one file after its header: binary
placeholder, empty-file placeholder, full joined content, or the read-error
placeholder, exactly as in the body of the loop of `build_final_string`. -/
def docBody (fs : FileSys) (file : String) : String :=
  if is_binary_file fs file then
    "(Binary file omitted)\n"
  else
    match fs.textOf file with
    | Except.ok lines =>
        if lines = [] then "(Empty file)\n" else String.join lines ++ "\n"
    | Except.error e => "(Could not read file: " ++ e ++ ")\n"

/-- The console lines printed while processing one file: the colored header
(`print_header`), the code-block indicator (`print_code_block_indicator`),
then either the binary warning, the empty-file warning, the truncated
preview (`print_truncated_content`, first 20 lines followed by `...`), or
the read-error message, and finally the bare `print()`. -/
def consoleFor (c : Colors) (fs : FileSys) (file : String) : List String :=
  [c.green ++ "### File: " ++ file ++ c.reset,
   c.magenta ++ "### Code block below:" ++ c.reset] ++
  (if is_binary_file fs file then
    [c.yellow ++ "(Binary file omitted)" ++ c.reset]
  else
    match fs.textOf file with
    | Except.ok lines =>
        if lines = [] then [c.yellow ++ "(Empty file)" ++ c.reset]
        else [c.white ++ truncated_content lines ++ "...\n" ++ c.reset]
    | Except.error e =>
        [c.red ++ "(Could not read file: " ++ e ++ ")" ++ c.reset]) ++
  [""]

/-- Embedding of `build_final_string`: the loop threads two accumulators,
the `output` list of document sections (seeded with `"Project Tree:"`, the
tree text and a blank entry, then per file its header and its body section)
and the list of console lines printed along the way.  The first component of
the result is the returned document `'\n'.join(output)`; the second is the
console transcript. -/
def build_final_string (c : Colors) (fs : FileSys) (tree : String)
    (files : List String) : String × List String :=
  let acc := files.foldl
    (fun acc file =>
      (acc.1 ++ [fileHeader file, docBody fs file],
       acc.2 ++ consoleFor c fs file))
    (["Project Tree:", tree, ""], ([] : List String))
  (pyJoin "\n" acc.1, acc.2)

/-- Colors used by the witness examples, standing for distinct colorama
escape codes. -/
def exColors : Colors := ⟨"G", "M", "W", "Y", "C", "R", "Z"⟩

/-- A concrete file-system content model used by the witness examples:
a 25-line text file, a file with a null byte in its first bytes, a zero-byte
file, a file holding a single newline, and a file whose text read fails. -/
def exFS : FileSys where
  bytesOf p :=
    if p = "a.txt" then some (List.replicate 25 120)
    else if p = "b.bin" then some [104, 0, 105]
    else if p = "empty.txt" then some []
    else if p = "nl.txt" then some [10]
    else if p = "err.txt" then some [101]
    else none
  textOf p :=
    if p = "a.txt" then Except.ok (List.replicate 25 "x\n")
    else if p = "empty.txt" then Except.ok []
    else if p = "nl.txt" then Except.ok ["\n"]
    else if p = "err.txt" then Except.error "Permission denied"
    else Except.error "FileNotFoundError"

/-- File list used by the witness examples. -/
def exFiles : List String := ["a.txt", "b.bin", "empty.txt", "nl.txt", "err.txt"]

/-- Split a character list at `/` separators (Python `str.split('/')`:
the empty list of characters yields one empty segment). -/
def splitSlash (l : List Char) : List (List Char) :=
  l.foldr
    (fun ch acc =>
      if ch = '/' then [] :: acc
      else match acc with
        | [] => [[ch]]
        | g :: gs => (ch :: g) :: gs)
    [[]]

/-- Recursion core of `segMatch`.  The first argument bounds the recursion
depth (each step shortens the pattern or the candidate, so
`p.length + s.length` steps always suffice); making the recursion structural
in this bound keeps the matcher kernel-reducible. -/
def segMatchGo : Nat → List Char → List Char → Bool
  | 0, p, s => p.isEmpty && s.isEmpty
  | fuel + 1, p, s =>
    match p, s with
    | [], [] => true
    | [], _ :: _ => false
    | '*' :: ps, ss =>
        segMatchGo fuel ps ss ||
        (match ss with
         | [] => false
         | _ :: ss2 => segMatchGo fuel ('*' :: ps) ss2)
    | '?' :: ps, ss =>
        (match ss with
         | [] => false
         | _ :: ss2 => segMatchGo fuel ps ss2)
    | c :: ps, ss =>
        (match ss with
         | [] => false
         | s1 :: ss2 => c = s1 && segMatchGo fuel ps ss2)

/-- Glob matching of one pattern segment against one path segment:
`*` matches any run of characters, `?` matches one character, anything else
matches itself. -/
def segMatch (p s : List Char) : Bool :=
  segMatchGo (p.length + s.length) p s

/-- Recursion core of `globMatch`, with the same structural depth bound
(each step drops a pattern segment or a path segment). -/
def globMatchGo : Nat → List (List Char) → List (List Char) → Bool
  | 0, ps, ss => ps.isEmpty && ss.isEmpty
  | fuel + 1, ps, ss =>
    match ps, ss with
    | [], [] => true
    | [], _ :: _ => false
    | ['*', '*'] :: ps2, ss =>
        globMatchGo fuel ps2 ss ||
        (match ss with
         | [] => false
         | _ :: ss2 => globMatchGo fuel (['*', '*'] :: ps2) ss2)
    | p :: ps2, ss =>
        (match ss with
         | [] => false
         | s :: ss2 => segMatch p s && globMatchGo fuel ps2 ss2)

/-- Glob matching of a segment-pattern list against a path-segment list,
where the `**` segment matches any number (possibly zero) of path
segments. -/
def globMatch (ps ss : List (List Char)) : Bool :=
  globMatchGo (ps.length + ss.length) ps ss

/-- A compiled gitwildmatch pattern: the include flag (`false` for a `!`
negation), whether the pattern is directory-only (trailing `/`), whether it
is anchored (contains a non-trailing `/`), and its glob segments. -/
structure GitPattern where
  inc : Bool
  dirOnly : Bool
  anchored : Bool
  segs : List (List Char)
deriving DecidableEq

/-- Whitespace trimming applied to a raw pattern line (gitwildmatch
normalizes the line read from the ignore file; `readlines` keeps the
trailing newline). -/
def trimLine (l : List Char) : List Char :=
  ((l.dropWhile (fun c => c = ' ' ∨ c = '\n' ∨ c = '\t' ∨ c = '\r')).reverse.dropWhile
    (fun c => c = ' ' ∨ c = '\n' ∨ c = '\t' ∨ c = '\r')).reverse

/-- Compile one ignore-file line into a pattern, in the manner of
`pathspec`'s `GitWildMatchPattern`: blank lines and `#` comments compile to
no pattern, a leading `!` clears the include flag, a trailing `/` marks the
pattern directory-only, and a remaining `/` anywhere marks it anchored
(a leading `/` is dropped from the glob segments). -/
def compilePattern (line : String) : Option GitPattern :=
  let t := trimLine line.data
  match t with
  | [] => none
  | '#' :: _ => none
  | t =>
    let inc := t.head? ≠ some '!'
    let t := if t.head? = some '!' then t.drop 1 else t
    if t = [] then none
    else
      let dirOnly := t.getLast? = some '/'
      let t := if t.getLast? = some '/' then t.dropLast else t
      if t = [] then none
      else
        let anchored := t.contains '/'
        let t := if t.head? = some '/' then t.drop 1 else t
        some ⟨inc, dirOnly, anchored, splitSlash t⟩

/-- Match one compiled pattern against a relative path (directory paths
carry a trailing `/`).  An unanchored pattern may match at any depth
(a leading `**` segment is supplied); a pattern also matches everything
under a directory it matches; a directory-only pattern does not match a
final path component that is not a directory. -/
def matchPattern (p : GitPattern) (path : String) : Bool :=
  let isDir := path.data.getLast? = some '/'
  let psegs := splitSlash (if isDir then path.data.dropLast else path.data)
  let pat := if p.anchored then p.segs else ['*', '*'] :: p.segs
  (List.range (psegs.length + 1)).any fun k =>
    globMatch pat (psegs.take k) &&
      (decide (k < psegs.length) || isDir || !p.dirOnly)

/-- Last-match-wins evaluation of an ordered pattern list, as in
`pathspec.util.match_file`: each matching pattern overwrites the verdict
with its include flag; the verdict starts at not-matched. -/
def matchFileList (pats : List GitPattern) (path : String) : Bool :=
  pats.foldl (fun acc p => if matchPattern p path then p.inc else acc) false

/-- The built-in `default_ignore_patterns` list of `load_gitignore`. -/
def default_ignore_patterns : List String :=
  [".git/", ".svn/", ".hg/", ".DS_Store", "__pycache__/", "*.pyc", "*.pyo",
   "*.pyd", "*$py.class", "*.so", "build/", "dist/", "downloads/", "eggs/",
   ".eggs/", "lib/", "lib64/", "parts/", "sdist/"]

/-- The user rule list: the compiled `.gitignore` lines when the file
exists (`PathSpec.from_lines` on its `readlines`), the empty list when it
does not. -/
def gitignoreSpec (gitignore : Option (List String)) : List GitPattern :=
  match gitignore with
  | some lines => lines.filterMap compilePattern
  | none => []

/-- The compiled built-in default pattern list. -/
def defaultSpec : List GitPattern :=
  default_ignore_patterns.filterMap compilePattern

/-- Embedding of `load_gitignore`: the combined spec
`gitignore_spec + default_spec`, i.e. the user patterns followed by the
built-in defaults in one pattern list. -/
def load_gitignore (gitignore : Option (List String)) : List GitPattern :=
  gitignoreSpec gitignore ++ defaultSpec

/-- The relative path of entry `n` of the directory at relative path `rel`
(`os.path.normpath(os.path.join(os.path.relpath(root, '.'), n))`). -/
def childPath (rel n : String) : String :=
  if rel = "" then n else rel ++ "/" ++ n

/-- Number of path separators in a relative path
(`rel_path.count(os.sep)`). -/
def countSep (s : String) : Nat :=
  s.data.countP (fun c => c = '/')

/-- The indentation level of a visited directory, as computed by the
source: `0` for the root, `rel_path.count(os.sep) + 1` otherwise. -/
def levelOf (rel : String) : Nat :=
  if rel = "" then 0 else countSep rel + 1

/-- Indentation of a tree line: `' ' * 4 * level`. -/
def indent (k : Nat) : String :=
  ⟨List.replicate (4 * k) ' '⟩

/-- Test that a character is not the path separator. -/
def notSlash (c : Char) : Bool := c != '/'

/-- The final path component (`pathlib.Path(p).name` for the slash-joined
relative paths the walker produces). -/
def baseName (p : String) : String :=
  ⟨(p.data.reverse.takeWhile notSlash).reverse⟩

/-- The parent portion of a relative path: everything before the last `/`
(empty for a top-level name). -/
def dirOf (p : String) : String :=
  ⟨((p.data.reverse.dropWhile notSlash).drop 1).reverse⟩

/-- A well-formed file-system entry name: nonempty and without `/`. -/
def goodName (s : String) : Bool :=
  !s.data.isEmpty && !s.data.contains '/'

/-- Python string comparison on character lists: lexicographic by code
point. -/
def charListLe : List Char → List Char → Bool
  | [], _ => true
  | _ :: _, [] => false
  | a :: as, b :: bs =>
      if a.toNat < b.toNat then true
      else if b.toNat < a.toNat then false
      else charListLe as bs

/-- Python string comparison (`a <= b`). -/
def strLe (a b : String) : Bool :=
  charListLe a.data b.data

/-- Python `sorted(files)`: the file names of a directory listing in
ascending lexicographic order. -/
def sortFiles (files : List String) : List String :=
  files.insertionSort (fun a b => strLe a b = true)

mutual

/-- A directory of the walked tree: its subdirectory entries and its file
names, both in `os.walk` listing order. -/
inductive FSDir : Type where
  | mk (ds : Entries) (files : List String)

/-- The named subdirectory entries of a directory. -/
inductive Entries : Type where
  | nil
  | cons (name : String) (d : FSDir) (rest : Entries)

end

/-- The subdirectory names of an entry list, in listing order. -/
def entryNames : Entries → List String
  | .nil => []
  | .cons n _ rest => n :: entryNames rest

/-- No duplicates in a name list. -/
def nodupNames : List String → Bool
  | [] => true
  | x :: xs => !xs.contains x && nodupNames xs

mutual

/-- Well-formedness of a directory as a real file system guarantees it:
every name is nonempty and slash-free and sibling subdirectory names are
distinct. -/
def wfDir : FSDir → Bool
  | .mk ds files =>
      files.all goodName && nodupNames (entryNames ds) && wfEntries ds

/-- Well-formedness of an entry list. -/
def wfEntries : Entries → Bool
  | .nil => true
  | .cons n d rest => goodName n && wfDir d && wfEntries rest

end

/-- The files of one visited directory that make it into the output: the
sorted file names surviving `not spec.match_file(rel_file_path) and
Path(rel_file_path).name != '.gitignore'` (this test is word-for-word the
same in `build_project_tree` and `collect_files`). -/
def includedFiles (spec : String → Bool) (rel : String)
    (files : List String) : List String :=
  (sortFiles files).filter
    (fun f => !spec (childPath rel f) && baseName (childPath rel f) != ".gitignore")

mutual

/-- Embedding of the `collect_files` walk from the directory at relative
path `rel`: the included files of the current directory first, then the
recursion into each subdirectory surviving the in-place pruning
`dirs[:] = [d for d in dirs if not spec.match_file(... + '/')]`, in listing
order. -/
def collectFrom (spec : String → Bool) (rel : String) : FSDir → List String
  | .mk ds files =>
      (includedFiles spec rel files).map (fun f => childPath rel f)
      ++ collectEntries spec rel ds

/-- The recursion of `collect_files` over the subdirectory entries: a
pruned entry contributes nothing (its subtree is never walked). -/
def collectEntries (spec : String → Bool) (rel : String) : Entries → List String
  | .nil => []
  | .cons n d rest =>
      (if spec (childPath rel n ++ "/") then []
       else collectFrom spec (childPath rel n) d)
      ++ collectEntries spec rel rest

end

/-- Embedding of `collect_files` started at the root. -/
def collect_files (spec : String → Bool) (root : FSDir) : List String :=
  collectFrom spec "" root

mutual

/-- Embedding of the `build_project_tree` walk from the directory at
relative path `rel` whose display name (`os.path.basename(root)`, or `'.'`
at the root) is `name`: the directory line, the file lines of the current
directory, then the recursion into the surviving subdirectories. -/
def treeFrom (spec : String → Bool) (rel name : String) : FSDir → List String
  | .mk ds files =>
      (indent (levelOf rel) ++ name ++ "/")
      :: ((includedFiles spec rel files).map
            (fun f => indent (levelOf rel + 1) ++ f)
          ++ treeEntries spec rel ds)

/-- The recursion of `build_project_tree` over the subdirectory entries,
with the same pruning as `collect_files`. -/
def treeEntries (spec : String → Bool) (rel : String) : Entries → List String
  | .nil => []
  | .cons n d rest =>
      (if spec (childPath rel n ++ "/") then []
       else treeFrom spec (childPath rel n) n d)
      ++ treeEntries spec rel rest

end

/-- Embedding of `build_project_tree` started at the root (displayed `.`,
level `0`): the tree lines joined by newlines. -/
def build_project_tree (spec : String → Bool) (root : FSDir) : String :=
  pyJoin "\n" (treeFrom spec "" "." root)

mutual

/-- The subtree of a directory at a path given as a list of subdirectory
names (`some` when every name exists on the way down). -/
def dirAt : FSDir → List String → Option FSDir
  | d, [] => some d
  | .mk ds _, n :: rest => dirAtE ds n rest

/-- Lookup of `dirAt` among the entries (first entry with the wanted
name). -/
def dirAtE : Entries → String → List String → Option FSDir
  | .nil, _, _ => none
  | .cons m sub tail, n, rest =>
      if m = n then dirAt sub rest else dirAtE tail n rest

end

mutual

/-- Replace the subtree at a path of subdirectory names (no change when the
path does not exist).  Used to state that a pruned subtree is never
visited: the walker output is invariant under replacing its contents. -/
def replaceAt : FSDir → List String → FSDir → FSDir
  | _, [], D2 => D2
  | .mk ds files, n :: rest, D2 => .mk (replaceAtE ds n rest D2) files

/-- Entry-list part of `replaceAt` (first entry with the wanted name). -/
def replaceAtE : Entries → String → List String → FSDir → Entries
  | .nil, _, _, _ => .nil
  | .cons m sub tail, n, rest, D2 =>
      if m = n then .cons m (replaceAt sub rest D2) tail
      else .cons m sub (replaceAtE tail n rest D2)

end

mutual

/-- Remove every file named `.gitignore` from the tree, at every depth. -/
def stripGitignore : FSDir → FSDir
  | .mk ds files =>
      .mk (stripGitignoreE ds) (files.filter (fun f => f != ".gitignore"))

/-- Entry-list part of `stripGitignore`. -/
def stripGitignoreE : Entries → Entries
  | .nil => .nil
  | .cons n d rest => .cons n (stripGitignore d) (stripGitignoreE rest)

end

/-- Slash-join of a list of path components. -/
def joinSegs : List String → String
  | [] => ""
  | [s] => s
  | s :: rest => s ++ "/" ++ joinSegs rest

/-- Extension of a relative path by a list of further components. -/
def joinAll (rel : String) (segs : List String) : String :=
  segs.foldl childPath rel

/-- Boolean string-prefix test, on the character lists. -/
def isPre : List Char → List Char → Bool
  | [], _ => true
  | _ :: _, [] => false
  | a :: as, b :: bs => a = b && isPre as bs

mutual

/-- Tree rendering transcribed from the specification's words, for
comparison with the source-derived `treeFrom`: one line per visited
directory (its name plus `/`, indented by `4 * depth` spaces, the root at
depth `0` displayed as `.`), immediately followed by one line per included
file (indented by `4 * (depth + 1)` spaces), depth-first and pre-order,
where the depth is the structural nesting depth of the visit. -/
def docTreeDir (spec : String → Bool) (depth : Nat) (rel name : String) :
    FSDir → List String
  | .mk ds files =>
      (indent depth ++ name ++ "/")
      :: ((includedFiles spec rel files).map
            (fun f => indent (depth + 1) ++ f)
          ++ docTreeEntries spec (depth + 1) rel ds)

/-- Entry-list part of `docTreeDir`, with the same pruning as the
walker. -/
def docTreeEntries (spec : String → Bool) (depth : Nat) (rel : String) :
    Entries → List String
  | .nil => []
  | .cons n d rest =>
      (if spec (childPath rel n ++ "/") then []
       else docTreeDir spec depth (childPath rel n) n d)
      ++ docTreeEntries spec depth rel rest

end

/-- Concrete directory tree used by the walker witnesses; it has a prunable
`build/` directory and `.gitignore` files both at the root and in a
subdirectory. -/
def exTree : FSDir :=
  .mk (.cons "build" (.mk .nil ["keep.txt"])
       (.cons "src" (.mk (.cons "deep" (.mk .nil ["z.py", "a.py"]) .nil)
          ["main.py", ".gitignore"])
        .nil))
      ["setup.py", ".gitignore", "b.txt"]

/-- Concrete matcher used by the walker witnesses: excludes exactly the
`build/` directory path. -/
def exSpec : String → Bool := fun s => s == "build/"

/-- Whether a tree-text line is a directory line: in the rendering these
are exactly the lines ending in `/`. -/
def endsWithSlash (s : String) : Bool :=
  s.data.getLast? == some '/'

/-- Ordering property of the collected list: any two paths of the same
directory appear with their base names in ascending lexicographic order. -/
def lexWithin (p q : String) : Prop :=
  dirOf p = dirOf q → strLe (baseName p) (baseName q) = true

/-! ## Theorems -/

theorem build_final_string_loop (c : Colors) (fs : FileSys)
    (files : List String) (a b : List String) :
    files.foldl
      (fun acc file =>
        (acc.1 ++ [fileHeader file, docBody fs file],
         acc.2 ++ consoleFor c fs file))
      (a, b)
    = (a ++ files.flatMap (fun file => [fileHeader file, docBody fs file]),
       b ++ files.flatMap (fun file => consoleFor c fs file)) := by
  induction files generalizing a b with
  | nil => simp
  | cons f rest ih => simp [List.foldl_cons, ih, List.append_assoc]

theorem build_final_string_eq (c : Colors) (fs : FileSys) (tree : String)
    (files : List String) :
    build_final_string c fs tree files
    = (pyJoin "\n" (["Project Tree:", tree, ""] ++
          files.flatMap (fun file => [fileHeader file, docBody fs file])),
       files.flatMap (fun file => consoleFor c fs file)) := by
  unfold build_final_string
  rw [build_final_string_loop]
  simp

theorem pyJoin_append (xs ys : List String) (hx : xs ≠ []) (hy : ys ≠ []) :
    pyJoin "\n" (xs ++ ys) = pyJoin "\n" xs ++ "\n" ++ pyJoin "\n" ys := by
  induction xs with
  | nil => exact absurd rfl hx
  | cons x xs ih =>
    cases xs with
    | nil =>
      cases ys with
      | nil => exact absurd rfl hy
      | cons y ys => simp [pyJoin]
    | cons x2 xs2 =>
      have h2 : (x2 :: xs2 : List String) ≠ [] := by simp
      have e1 : pyJoin "\n" ((x :: x2 :: xs2) ++ ys)
          = x ++ "\n" ++ pyJoin "\n" ((x2 :: xs2) ++ ys) := rfl
      have e2 : pyJoin "\n" (x :: x2 :: xs2)
          = x ++ "\n" ++ pyJoin "\n" (x2 :: xs2) := rfl
      rw [e1, ih h2, e2]
      simp [String.append_assoc]

/-- Every file of the list contributes the adjacent pair
(header, body section) to the joined document. -/
theorem doc_has_section (c : Colors) (fs : FileSys) (tree : String)
    (files : List String) (f : String) (hmem : f ∈ files) :
    ∃ pre post, (build_final_string c fs tree files).1
      = pre ++ (fileHeader f ++ "\n" ++ docBody fs f) ++ post := by
  rcases List.append_of_mem hmem with ⟨u, v, rfl⟩
  rw [build_final_string_eq]
  simp only [List.flatMap_append, List.flatMap_cons]
  have hsec : ∀ zs : List String,
      pyJoin "\n" (([fileHeader f, docBody fs f] : List String) ++ zs)
      = (fileHeader f ++ "\n" ++ docBody fs f) ++
          (if zs = [] then "" else "\n" ++ pyJoin "\n" zs) := by
    intro zs
    cases zs with
    | nil => simp [pyJoin, String.append_assoc]
    | cons z zs =>
      have : ([fileHeader f, docBody fs f] : List String) ≠ [] := by simp
      rw [pyJoin_append _ _ this (by simp)]
      simp [pyJoin, String.append_assoc]
  have hA : (["Project Tree:", tree, ""] : List String) ++
      u.flatMap (fun file => [fileHeader file, docBody fs file]) ≠ [] := by
    simp
  rw [show (["Project Tree:", tree, ""] : List String) ++
      (u.flatMap (fun file => [fileHeader file, docBody fs file]) ++
        ([fileHeader f, docBody fs f] ++
          v.flatMap (fun file => [fileHeader file, docBody fs file])))
      = ((["Project Tree:", tree, ""] : List String) ++
          u.flatMap (fun file => [fileHeader file, docBody fs file])) ++
        (([fileHeader f, docBody fs f] : List String) ++
          v.flatMap (fun file => [fileHeader file, docBody fs file])) by
    simp [List.append_assoc]]
  rw [pyJoin_append _ _ hA (by simp)]
  rw [hsec]
  exact ⟨pyJoin "\n" ((["Project Tree:", tree, ""] : List String) ++
      u.flatMap (fun file => [fileHeader file, docBody fs file])) ++ "\n",
    (if v.flatMap (fun file => [fileHeader file, docBody fs file]) = []
      then "" else "\n" ++ pyJoin "\n"
        (v.flatMap (fun file => [fileHeader file, docBody fs file]))),
    by simp [String.append_assoc]⟩

/-- C4: a file whose first 1024 bytes contain a null byte, or which cannot
be opened for the binary check, is classified binary by `is_binary_file`
regardless of any later content, and `build_final_string` puts the
`(Binary file omitted)` placeholder in its document section. -/
theorem nullbyte_or_unreadable_is_binary (c : Colors) (fs : FileSys)
    (tree : String) (files : List String) (f : String)
    (hmem : f ∈ files)
    (hnull : fs.bytesOf f = none ∨
      ∃ bs, fs.bytesOf f = some bs ∧ (bs.take 1024).contains 0 = true) :
    is_binary_file fs f = true ∧
    ∃ pre post, (build_final_string c fs tree files).1
      = pre ++ (fileHeader f ++ "\n" ++ "(Binary file omitted)\n") ++ post := by
  have hbin : is_binary_file fs f = true := by
    rcases hnull with h | ⟨bs, hbs, hz⟩
    · simp [is_binary_file, h]
    · simpa [is_binary_file, hbs] using hz
  refine ⟨hbin, ?_⟩
  have := doc_has_section c fs tree files f hmem
  rwa [show docBody fs f = "(Binary file omitted)\n" by
    simp [docBody, hbin]] at this

/-- Witness for C4 at a concrete file containing the bytes `68 00 69`. -/
theorem nullbyte_or_unreadable_is_binary_witness :
    ("b.bin" ∈ exFiles) ∧
    (∃ bs, exFS.bytesOf "b.bin" = some bs ∧ (bs.take 1024).contains 0 = true) ∧
    (is_binary_file exFS "b.bin" = true ∧
      ∃ pre post, (build_final_string exColors exFS "tree" exFiles).1
        = pre ++ (fileHeader "b.bin" ++ "\n" ++ "(Binary file omitted)\n") ++ post) :=
  ⟨by decide, ⟨[104, 0, 105], by decide, by decide⟩,
   nullbyte_or_unreadable_is_binary exColors exFS "tree" exFiles "b.bin"
     (by decide) (Or.inr ⟨[104, 0, 105], by decide, by decide⟩)⟩

/-- C5: an included non-binary readable text file contributes its full
joined content to the returned document with no truncation, while the
console preview printed for it is the first-20-lines rendering followed by
the `...` marker; the preview computation depends only on the first 20
lines, so the display truncation never alters the returned document. -/
theorem document_full_content_preview_truncated (c : Colors) (fs : FileSys)
    (tree : String) (files : List String) (f : String) (lines : List String)
    (hmem : f ∈ files) (hbin : is_binary_file fs f = false)
    (htext : fs.textOf f = Except.ok lines) (hne : lines ≠ []) :
    (∃ pre post, (build_final_string c fs tree files).1
      = pre ++ String.join lines ++ post) ∧
    consoleFor c fs f =
      [c.green ++ "### File: " ++ f ++ c.reset,
       c.magenta ++ "### Code block below:" ++ c.reset,
       c.white ++ truncated_content lines ++ "...\n" ++ c.reset, ""] ∧
    (c.white ++ truncated_content lines ++ "...\n" ++ c.reset)
      ∈ (build_final_string c fs tree files).2 ∧
    (∀ lines2 : List String, lines2.take 20 = lines.take 20 →
      truncated_content lines2 = truncated_content lines) := by
  have hcons : consoleFor c fs f =
      [c.green ++ "### File: " ++ f ++ c.reset,
       c.magenta ++ "### Code block below:" ++ c.reset,
       c.white ++ truncated_content lines ++ "...\n" ++ c.reset, ""] := by
    simp [consoleFor, hbin, htext, hne]
  refine ⟨?_, hcons, ?_, ?_⟩
  · rcases doc_has_section c fs tree files f hmem with ⟨pre, post, hdoc⟩
    refine ⟨pre ++ (fileHeader f ++ "\n"), "\n" ++ post, ?_⟩
    rw [hdoc, show docBody fs f = String.join lines ++ "\n" by
      simp [docBody, hbin, htext, hne]]
    simp [String.append_assoc]
  · rw [build_final_string_eq]
    simp only [List.mem_flatMap]
    exact ⟨f, hmem, by rw [hcons]; simp⟩
  · intro lines2 h
    simp [truncated_content, h]

/-- Witness for C5 at a concrete 25-line text file. -/
theorem document_full_content_preview_truncated_witness :
    ("a.txt" ∈ exFiles) ∧ (is_binary_file exFS "a.txt" = false) ∧
    (exFS.textOf "a.txt" = Except.ok (List.replicate 25 "x\n")) ∧
    (List.replicate 25 "x\n" ≠ []) ∧
    ((∃ pre post, (build_final_string exColors exFS "tree" exFiles).1
        = pre ++ String.join (List.replicate 25 "x\n") ++ post) ∧
      consoleFor exColors exFS "a.txt" =
        [exColors.green ++ "### File: " ++ "a.txt" ++ exColors.reset,
         exColors.magenta ++ "### Code block below:" ++ exColors.reset,
         exColors.white ++ truncated_content (List.replicate 25 "x\n")
           ++ "...\n" ++ exColors.reset, ""] ∧
      (exColors.white ++ truncated_content (List.replicate 25 "x\n")
        ++ "...\n" ++ exColors.reset)
        ∈ (build_final_string exColors exFS "tree" exFiles).2 ∧
      (∀ lines2 : List String, lines2.take 20 = (List.replicate 25 "x\n").take 20 →
        truncated_content lines2 = truncated_content (List.replicate 25 "x\n"))) :=
  ⟨by decide, by decide, by simp [exFS], by decide,
   document_full_content_preview_truncated exColors exFS "tree" exFiles
     "a.txt" (List.replicate 25 "x\n") (by decide) (by decide) (by simp [exFS])
     (by decide)⟩

/-- C6: a file whose text read fails gets the `(Could not read file: …)`
placeholder in the document, and the failure is not fatal: every file of the
list, including later ones, still contributes its header and body section
to the document. -/
theorem read_failure_nonfatal (c : Colors) (fs : FileSys) (tree : String)
    (files : List String) (f e : String)
    (hmem : f ∈ files) (hbin : is_binary_file fs f = false)
    (herr : fs.textOf f = Except.error e) :
    (∃ pre post, (build_final_string c fs tree files).1
      = pre ++ (fileHeader f ++ "\n" ++
          ("(Could not read file: " ++ e ++ ")\n")) ++ post) ∧
    ∀ g ∈ files, ∃ pre post, (build_final_string c fs tree files).1
      = pre ++ (fileHeader g ++ "\n" ++ docBody fs g) ++ post := by
  constructor
  · have := doc_has_section c fs tree files f hmem
    rwa [show docBody fs f = "(Could not read file: " ++ e ++ ")\n" by
      simp [docBody, hbin, herr]] at this
  · intro g hg
    exact doc_has_section c fs tree files g hg

/-- Witness for C6 at a concrete unreadable file followed by no aborted
processing of the remaining list. -/
theorem read_failure_nonfatal_witness :
    ("err.txt" ∈ exFiles) ∧ (is_binary_file exFS "err.txt" = false) ∧
    (exFS.textOf "err.txt" = Except.error "Permission denied") ∧
    ((∃ pre post, (build_final_string exColors exFS "tree" exFiles).1
        = pre ++ (fileHeader "err.txt" ++ "\n" ++
            ("(Could not read file: " ++ "Permission denied" ++ ")\n")) ++ post) ∧
      ∀ g ∈ exFiles, ∃ pre post,
        (build_final_string exColors exFS "tree" exFiles).1
        = pre ++ (fileHeader g ++ "\n" ++ docBody exFS g) ++ post) :=
  ⟨by decide, by decide, by simp [exFS],
   read_failure_nonfatal exColors exFS "tree" exFiles "err.txt"
     "Permission denied" (by decide) (by decide) (by simp [exFS])⟩

/-- C7: a zero-byte included file yields the `(Empty file)` placeholder in
the document; a file holding a single newline yields its content (an empty
line), not the empty-file placeholder. -/
theorem empty_file_vs_single_newline (c : Colors) (fs : FileSys)
    (tree : String) (files : List String) (f : String) (hmem : f ∈ files) :
    (fs.bytesOf f = some [] → fs.textOf f = Except.ok [] →
      docBody fs f = "(Empty file)\n" ∧
      ∃ pre post, (build_final_string c fs tree files).1
        = pre ++ (fileHeader f ++ "\n" ++ "(Empty file)\n") ++ post) ∧
    (fs.bytesOf f = some [10] → fs.textOf f = Except.ok ["\n"] →
      docBody fs f = "\n\n" ∧ docBody fs f ≠ "(Empty file)\n" ∧
      ∃ pre post, (build_final_string c fs tree files).1
        = pre ++ (fileHeader f ++ "\n" ++ "\n\n") ++ post) := by
  constructor
  · intro hb ht
    have hbin : is_binary_file fs f = false := by
      simp [is_binary_file, hb]
    have hbody : docBody fs f = "(Empty file)\n" := by
      simp [docBody, hbin, ht]
    refine ⟨hbody, ?_⟩
    have := doc_has_section c fs tree files f hmem
    rwa [hbody] at this
  · intro hb ht
    have hbin : is_binary_file fs f = false := by
      simp [is_binary_file, hb]
    have hbody : docBody fs f = "\n\n" := by
      simp [docBody, hbin, ht, String.join]
    refine ⟨hbody, by rw [hbody]; decide, ?_⟩
    have := doc_has_section c fs tree files f hmem
    rwa [hbody] at this

/-- Witness for C7 at a concrete zero-byte file and a concrete
single-newline file. -/
theorem empty_file_vs_single_newline_witness :
    ("empty.txt" ∈ exFiles) ∧ ("nl.txt" ∈ exFiles) ∧
    (docBody exFS "empty.txt" = "(Empty file)\n" ∧
      ∃ pre post, (build_final_string exColors exFS "tree" exFiles).1
        = pre ++ (fileHeader "empty.txt" ++ "\n" ++ "(Empty file)\n") ++ post) ∧
    (docBody exFS "nl.txt" = "\n\n" ∧ docBody exFS "nl.txt" ≠ "(Empty file)\n" ∧
      ∃ pre post, (build_final_string exColors exFS "tree" exFiles).1
        = pre ++ (fileHeader "nl.txt" ++ "\n" ++ "\n\n") ++ post) :=
  ⟨by decide, by decide,
   (empty_file_vs_single_newline exColors exFS "tree" exFiles "empty.txt"
     (by decide)).1 (by decide) (by simp [exFS]),
   (empty_file_vs_single_newline exColors exFS "tree" exFiles "nl.txt"
     (by decide)).2 (by decide) (by simp [exFS])⟩

/-- C10: the returned document is a function of the tree text, the ordered
file list and the per-file read outcomes alone; the console printing (and in
particular the colorama escape codes it uses) has no influence on it. -/
theorem document_deterministic_console_independent (c1 c2 : Colors)
    (fs : FileSys) (tree : String) (files : List String) :
    (build_final_string c1 fs tree files).1
      = (build_final_string c2 fs tree files).1 := by
  rw [build_final_string_eq, build_final_string_eq]

theorem matchFileList_all_inc (path : String) (b : List GitPattern)
    (hb : ∀ p ∈ b, p.inc = true) (init : Bool) :
    b.foldl (fun acc p => if matchPattern p path then p.inc else acc) init
      = (init || b.any (fun p => matchPattern p path)) := by
  induction b generalizing init with
  | nil => simp
  | cons p b ih =>
    have hp : p.inc = true := hb p (by simp)
    have hb2 : ∀ q ∈ b, q.inc = true := fun q hq => hb q (by simp [hq])
    rw [List.foldl_cons, ih hb2]
    by_cases hm : matchPattern p path = true
    · simp [hm, hp]
    · simp [Bool.not_eq_true] at hm
      simp [hm]

/-- Concatenating a pattern list with a negation-free pattern list matches
exactly when either list matches on its own. -/
theorem matchFileList_append_posOnly (a b : List GitPattern) (path : String)
    (hb : ∀ p ∈ b, p.inc = true) :
    matchFileList (a ++ b) path
      = (matchFileList a path || matchFileList b path) := by
  unfold matchFileList
  rw [List.foldl_append, matchFileList_all_inc path b hb,
    matchFileList_all_inc path b hb]
  simp

/-- C1: the combined matcher built by `load_gitignore` excludes a path
exactly when the built-in default rule list excludes it or the user
`.gitignore` rule list excludes it, the two lists being resolved
independently (the built-in list contains no negations, so last-match-wins
over the concatenation coincides with this disjunction).  In particular a
user negation re-including a file under the built-in-excluded `build/`
directory is not honored: the negation wins inside the user list alone, but
the combined matcher still excludes both `build/keep.txt` and the `build/`
directory itself. -/
theorem load_gitignore_or_of_lists :
    (∀ (g : Option (List String)) (path : String),
      matchFileList (load_gitignore g) path
        = (matchFileList (gitignoreSpec g) path
            || matchFileList defaultSpec path)) ∧
    matchFileList (gitignoreSpec (some ["!build/keep.txt\n"]))
      "build/keep.txt" = false ∧
    matchFileList (load_gitignore (some ["!build/keep.txt\n"]))
      "build/keep.txt" = true ∧
    matchFileList (load_gitignore (some ["!build/keep.txt\n"]))
      "build/" = true := by
  have hpos : ∀ p ∈ defaultSpec, p.inc = true := by decide
  refine ⟨fun g path => ?_, by decide, by decide, by decide⟩
  exact matchFileList_append_posOnly (gitignoreSpec g) defaultSpec path hpos

theorem charListLe_total : ∀ a b : List Char,
    charListLe a b = true ∨ charListLe b a = true
  | [], _ => Or.inl rfl
  | _ :: _, [] => Or.inr rfl
  | a :: as, b :: bs => by
    rcases Nat.lt_trichotomy a.toNat b.toNat with h | h | h
    · left; simp [charListLe, h]
    · rcases charListLe_total as bs with ih | ih
      · left; simp [charListLe, h, ih]
      · right; simp [charListLe, h.symm, ih]
    · right; simp [charListLe, h]

theorem charListLe_trans : ∀ a b c : List Char,
    charListLe a b = true → charListLe b c = true → charListLe a c = true
  | [], _, _, _, _ => rfl
  | a :: as, [], c, h, _ => by simp [charListLe] at h
  | a :: as, b :: bs, [], _, h => by simp [charListLe] at h
  | a :: as, b :: bs, c :: cs, h1, h2 => by
    by_cases hab : a.toNat < b.toNat
    · by_cases hbc : b.toNat < c.toNat
      · simp [charListLe, Nat.lt_trans hab hbc]
      · have hcb : ¬ c.toNat < b.toNat := by
          intro hcb
          simp [charListLe, hcb, Nat.lt_asymm hcb] at h2
        have : a.toNat < c.toNat := by omega
        simp [charListLe, this]
    · have hba : ¬ b.toNat < a.toNat := by
        intro hba
        simp [charListLe, hba, Nat.lt_asymm hba] at h1
      have hab2 : a.toNat = b.toNat := by omega
      by_cases hbc : b.toNat < c.toNat
      · simp [charListLe, hab2 ▸ hbc]
      · have hcb : ¬ c.toNat < b.toNat := by
          intro hcb
          simp [charListLe, hcb, Nat.lt_asymm hcb] at h2
        simp only [charListLe, hab, hba, if_neg, ite_false] at h1
        simp only [charListLe, hbc, hcb, if_neg, ite_false] at h2
        have hac : ¬ a.toNat < c.toNat := by omega
        have hca : ¬ c.toNat < a.toNat := by omega
        simpa [charListLe, hac, hca] using charListLe_trans as bs cs h1 h2

theorem charListLe_antisymm : ∀ a b : List Char,
    charListLe a b = true → charListLe b a = true → a = b
  | [], [], _, _ => rfl
  | [], _ :: _, _, h => by simp [charListLe] at h
  | _ :: _, [], h, _ => by simp [charListLe] at h
  | a :: as, b :: bs, h1, h2 => by
    by_cases hab : a.toNat < b.toNat
    · simp [charListLe, hab, Nat.lt_asymm hab] at h2
    · by_cases hba : b.toNat < a.toNat
      · simp [charListLe, hba, Nat.lt_asymm hba] at h1
      · have hnat : a.toNat = b.toNat := by omega
        have heq : a = b := by
          have h3 := congrArg Char.ofNat hnat
          rwa [Char.ofNat_toNat, Char.ofNat_toNat] at h3
        simp only [charListLe, hab, hba, if_neg, ite_false] at h1 h2
        rw [heq, charListLe_antisymm as bs h1 h2]

instance : IsTotal String (fun a b => strLe a b = true) :=
  ⟨fun a b => charListLe_total a.data b.data⟩

instance : IsTrans String (fun a b => strLe a b = true) :=
  ⟨fun a b c => charListLe_trans a.data b.data c.data⟩

instance : IsAntisymm String (fun a b => strLe a b = true) :=
  ⟨fun a b h1 h2 => String.ext (charListLe_antisymm a.data b.data h1 h2)⟩

theorem sortFiles_sorted (l : List String) :
    (sortFiles l).Pairwise (fun a b => strLe a b = true) :=
  List.sorted_insertionSort _ l

theorem sortFiles_perm (l : List String) : List.Perm (sortFiles l) l :=
  List.perm_insertionSort _ l

theorem sortFiles_filter (q : String → Bool) (l : List String) :
    sortFiles (l.filter q) = (sortFiles l).filter q := by
  have hperm : List.Perm (sortFiles (l.filter q)) ((sortFiles l).filter q) :=
    (sortFiles_perm (l.filter q)).trans ((sortFiles_perm l).filter q).symm
  exact List.eq_of_perm_of_sorted hperm (sortFiles_sorted (l.filter q))
    ((sortFiles_sorted l).filter q)

theorem string_eq_iff_data {s t : String} : s = t ↔ s.data = t.data :=
  ⟨fun h => h ▸ rfl, String.ext⟩

theorem childPath_data (rel n : String) (h : rel ≠ "") :
    (childPath rel n).data = rel.data ++ '/' :: n.data := by
  simp [childPath, h, String.data_append]

theorem childPath_nil_data (n : String) : (childPath "" n).data = n.data := by
  simp [childPath]

theorem goodName_iff {s : String} :
    goodName s = true ↔ s.data ≠ [] ∧ '/' ∉ s.data := by
  simp [goodName, List.isEmpty_iff]

theorem notSlash_eq_true {c : Char} (h : c ≠ '/') : notSlash c = true := by
  simp [notSlash, h]

theorem takeWhile_append_slash {l r : List Char} (h : '/' ∉ l) :
    (l ++ '/' :: r).takeWhile notSlash = l := by
  induction l with
  | nil => simp [List.takeWhile_cons, notSlash]
  | cons x xs ih =>
    have hx : x ≠ '/' := fun he => h (by simp [he])
    have hxs : '/' ∉ xs := fun hm => h (by simp [hm])
    simp [List.takeWhile_cons, notSlash_eq_true hx, ih hxs]

theorem dropWhile_append_slash {l r : List Char} (h : '/' ∉ l) :
    (l ++ '/' :: r).dropWhile notSlash = '/' :: r := by
  induction l with
  | nil => simp [List.dropWhile_cons, notSlash]
  | cons x xs ih =>
    have hx : x ≠ '/' := fun he => h (by simp [he])
    have hxs : '/' ∉ xs := fun hm => h (by simp [hm])
    simp [List.dropWhile_cons, notSlash_eq_true hx, ih hxs]

theorem takeWhile_no_slash {l : List Char} (h : '/' ∉ l) :
    l.takeWhile notSlash = l := by
  induction l with
  | nil => rfl
  | cons x xs ih =>
    have hx : x ≠ '/' := fun he => h (by simp [he])
    have hxs : '/' ∉ xs := fun hm => h (by simp [hm])
    simp [List.takeWhile_cons, notSlash_eq_true hx, ih hxs]

theorem dropWhile_no_slash {l : List Char} (h : '/' ∉ l) :
    l.dropWhile notSlash = [] := by
  induction l with
  | nil => rfl
  | cons x xs ih =>
    have hx : x ≠ '/' := fun he => h (by simp [he])
    have hxs : '/' ∉ xs := fun hm => h (by simp [hm])
    simp [List.dropWhile_cons, notSlash_eq_true hx, ih hxs]

theorem baseName_childPath (rel : String) {f : String}
    (hf : goodName f = true) : baseName (childPath rel f) = f := by
  rcases goodName_iff.mp hf with ⟨-, hns⟩
  have hrev : '/' ∉ f.data.reverse := by simpa using hns
  by_cases h : rel = ""
  · subst h
    apply String.ext
    simp only [baseName, childPath_nil_data]
    rw [takeWhile_no_slash hrev]
    simp
  · apply String.ext
    simp only [baseName, childPath_data rel f h]
    have e : (rel.data ++ '/' :: f.data).reverse
        = f.data.reverse ++ '/' :: rel.data.reverse := by
      simp [List.reverse_append]
    rw [e, takeWhile_append_slash hrev]
    simp

theorem dirOf_childPath (rel : String) {f : String}
    (hf : goodName f = true) : dirOf (childPath rel f) = rel := by
  rcases goodName_iff.mp hf with ⟨-, hns⟩
  have hrev : '/' ∉ f.data.reverse := by simpa using hns
  by_cases h : rel = ""
  · subst h
    apply String.ext
    simp only [dirOf, childPath_nil_data]
    rw [dropWhile_no_slash hrev]
    simp
  · apply String.ext
    simp only [dirOf, childPath_data rel f h]
    have e : (rel.data ++ '/' :: f.data).reverse
        = f.data.reverse ++ '/' :: rel.data.reverse := by
      simp [List.reverse_append]
    rw [e, dropWhile_append_slash hrev]
    simp

theorem childPath_ne_empty (rel : String) {n : String}
    (hn : goodName n = true) : childPath rel n ≠ "" := by
  rcases goodName_iff.mp hn with ⟨hne, -⟩
  by_cases h : rel = ""
  · subst h
    simpa [childPath, string_eq_iff_data] using hne
  · intro hc
    rw [string_eq_iff_data, childPath_data rel n h] at hc
    simp at hc

theorem levelOf_childPath (rel : String) {n : String}
    (hn : goodName n = true) : levelOf (childPath rel n) = levelOf rel + 1 := by
  rcases goodName_iff.mp hn with ⟨-, hns⟩
  have hcount : n.data.countP (fun c => decide (c = '/')) = 0 := by
    rw [List.countP_eq_zero]
    intro a ha
    simp only [decide_eq_true_eq]
    intro he
    exact hns (he ▸ ha)
  by_cases h : rel = ""
  · subst h
    rw [levelOf, if_neg (childPath_ne_empty "" hn), levelOf, if_pos rfl]
    simp [countSep, childPath, hcount]
  · rw [levelOf, if_neg (childPath_ne_empty rel hn), levelOf, if_neg h]
    have : countSep (childPath rel n) = countSep rel + 1 := by
      unfold countSep
      rw [childPath_data rel n h, List.countP_append, List.countP_cons]
      simp [hcount]
    omega

theorem joinAll_cons (rel n : String) (segs : List String) :
    joinAll rel (n :: segs) = joinAll (childPath rel n) segs := rfl

theorem joinAll_ne (rel : String) (h : rel ≠ "") :
    ∀ segs : List String, segs ≠ [] →
      joinAll rel segs = rel ++ "/" ++ joinSegs segs
  | [], hc => absurd rfl hc
  | [s], _ => by simp [joinAll, joinSegs, childPath, h]
  | s :: s2 :: rest, _ => by
      rw [joinAll_cons]
      have hcp : childPath rel s ≠ "" := by
        intro hc
        have h2 := congrArg String.data hc
        rw [childPath_data rel s h] at h2
        simp at h2
      rw [joinAll_ne (childPath rel s) hcp (s2 :: rest) (by simp),
        show childPath rel s = rel ++ "/" ++ s by simp [childPath, h],
        show joinSegs (s :: s2 :: rest) = s ++ "/" ++ joinSegs (s2 :: rest) from rfl]
      simp [String.append_assoc]

theorem joinAll_nil_rel {segs : List String}
    (hg : ∀ x ∈ segs, goodName x = true) :
    joinAll "" segs = joinSegs segs := by
  cases segs with
  | nil => rfl
  | cons s rest =>
    cases rest with
    | nil => simp [joinAll, joinSegs, childPath]
    | cons s2 r2 =>
      have hs : s ≠ "" := by
        rcases goodName_iff.mp (hg s (by simp)) with ⟨hne, -⟩
        simpa [string_eq_iff_data] using hne
      rw [joinAll_cons, show childPath "" s = s by simp [childPath],
        joinAll_ne s hs _ (by simp)]
      rfl

theorem childPath_longer (rel : String) {n : String}
    (hn : goodName n = true) :
    rel.data.length < (childPath rel n).data.length := by
  rcases goodName_iff.mp hn with ⟨hne, -⟩
  by_cases h : rel = ""
  · subst h
    simpa [childPath] using List.length_pos.mpr hne
  · rw [childPath_data rel n h]
    simp

theorem joinAll_longer :
    ∀ (segs : List String) (rel : String) {n : String},
      goodName n = true → (∀ x ∈ segs, goodName x = true) →
      rel.data.length < (joinAll rel (n :: segs)).data.length
  | [], rel, n, hn, _ => by simpa [joinAll_cons, joinAll] using childPath_longer rel hn
  | m :: rest, rel, n, hn, hg => by
      rw [joinAll_cons]
      exact Nat.lt_trans (childPath_longer rel hn)
        (joinAll_longer rest (childPath rel n) (hg m (by simp))
          (fun x hx => hg x (by simp [hx])))

theorem takeWhile_joinSegs (a : String) (u : List String)
    (ha : goodName a = true) :
    (joinSegs (a :: u)).data.takeWhile notSlash = a.data := by
  rcases goodName_iff.mp ha with ⟨-, hns⟩
  cases u with
  | nil => exact takeWhile_no_slash hns
  | cons b v =>
    have e : (joinSegs (a :: b :: v)).data
        = a.data ++ '/' :: (joinSegs (b :: v)).data := by
      show (a ++ "/" ++ joinSegs (b :: v)).data = _
      simp [String.data_append]
    rw [e, takeWhile_append_slash hns]

theorem joinSegs_head_ne {a b : String} (u v : List String)
    (ha : goodName a = true) (hb : goodName b = true) (hne : a ≠ b) :
    joinSegs (a :: u) ≠ joinSegs (b :: v) := by
  intro h
  apply hne
  apply String.ext
  have h2 := congrArg (fun s : String => s.data.takeWhile notSlash) h
  simp only at h2
  rwa [takeWhile_joinSegs a u ha, takeWhile_joinSegs b v hb] at h2

theorem dirOf_joinAll (rel : String) :
    ∀ (segs : List String) {f : String}, goodName f = true →
      (∀ x ∈ segs, goodName x = true) →
      dirOf (joinAll rel (segs ++ [f])) = joinAll rel segs
  | [], f, hf, _ => by simpa [joinAll_cons, joinAll] using dirOf_childPath rel hf
  | s :: rest, f, hf, hg => by
      rw [show (s :: rest) ++ [f] = s :: (rest ++ [f]) from rfl, joinAll_cons,
        joinAll_cons]
      exact dirOf_joinAll (childPath rel s) rest hf
        (fun x hx => hg x (by simp [hx]))

theorem baseName_joinAll (rel : String) :
    ∀ (segs : List String) {f : String}, goodName f = true →
      baseName (joinAll rel (segs ++ [f])) = f
  | [], f, hf => by simpa [joinAll_cons, joinAll] using baseName_childPath rel hf
  | s :: rest, f, hf => by
      rw [show (s :: rest) ++ [f] = s :: (rest ++ [f]) from rfl, joinAll_cons]
      exact baseName_joinAll (childPath rel s) rest hf

mutual

theorem collectFrom_baseName (spec : String → Bool) (rel : String) :
    ∀ (d : FSDir) (p : String), p ∈ collectFrom spec rel d →
      baseName p ≠ ".gitignore"
  | .mk ds files, p, hp => by
      rw [collectFrom] at hp
      rcases List.mem_append.mp hp with h | h
      · rcases List.mem_map.mp h with ⟨f, hf, rfl⟩
        have hpred := (List.mem_filter.mp hf).2
        have h2 := (Bool.and_eq_true _ _).mp hpred |>.2
        exact bne_iff_ne.mp h2
      · exact collectEntries_baseName spec rel ds p h

theorem collectEntries_baseName (spec : String → Bool) (rel : String) :
    ∀ (es : Entries) (p : String), p ∈ collectEntries spec rel es →
      baseName p ≠ ".gitignore"
  | .nil, p, hp => by simp [collectEntries] at hp
  | .cons n d rest, p, hp => by
      rw [collectEntries] at hp
      rcases List.mem_append.mp hp with h | h
      · by_cases hs : spec (childPath rel n ++ "/") = true
        · simp [hs] at h
        · rw [if_neg hs] at h
          exact collectFrom_baseName spec (childPath rel n) d p h
      · exact collectEntries_baseName spec rel rest p h

end

theorem includedFiles_strip (spec : String → Bool) (rel : String)
    (files : List String) (hall : files.all goodName = true) :
    includedFiles spec rel (files.filter (fun f => f != ".gitignore"))
      = includedFiles spec rel files := by
  unfold includedFiles
  rw [sortFiles_filter, List.filter_filter]
  apply List.filter_congr
  intro f hf
  have hmem : f ∈ files := (sortFiles_perm files).mem_iff.mp hf
  have hgood : goodName f = true := by
    have := List.all_eq_true.mp hall f hmem
    simpa using this
  rw [baseName_childPath rel hgood]
  cases hb : (f != ".gitignore") <;> simp [hb]

mutual

theorem collectFrom_strip (spec : String → Bool) (rel : String) :
    ∀ d : FSDir, wfDir d = true →
      collectFrom spec rel (stripGitignore d) = collectFrom spec rel d
  | .mk ds files, hwf => by
      rw [wfDir, Bool.and_eq_true, Bool.and_eq_true] at hwf
      obtain ⟨⟨hall, hnodup⟩, hents⟩ := hwf
      rw [stripGitignore, collectFrom, collectFrom]
      congr 1
      · rw [includedFiles_strip spec rel files hall]
      · exact collectEntries_strip spec rel ds hents

theorem collectEntries_strip (spec : String → Bool) (rel : String) :
    ∀ es : Entries, wfEntries es = true →
      collectEntries spec rel (stripGitignoreE es) = collectEntries spec rel es
  | .nil, _ => rfl
  | .cons n d rest, hwf => by
      rw [wfEntries, Bool.and_eq_true, Bool.and_eq_true] at hwf
      obtain ⟨⟨hn, hd⟩, hrest⟩ := hwf
      rw [stripGitignoreE, collectEntries, collectEntries]
      congr 1
      · by_cases hs : spec (childPath rel n ++ "/") = true
        · simp [hs]
        · rw [if_neg hs, if_neg hs, collectFrom_strip spec (childPath rel n) d hd]
      · exact collectEntries_strip spec rel rest hrest

end

mutual

theorem treeFrom_strip (spec : String → Bool) (rel name : String) :
    ∀ d : FSDir, wfDir d = true →
      treeFrom spec rel name (stripGitignore d) = treeFrom spec rel name d
  | .mk ds files, hwf => by
      rw [wfDir, Bool.and_eq_true, Bool.and_eq_true] at hwf
      obtain ⟨⟨hall, hnodup⟩, hents⟩ := hwf
      rw [stripGitignore, treeFrom, treeFrom]
      rw [includedFiles_strip spec rel files hall,
        treeEntries_strip spec rel ds hents]

theorem treeEntries_strip (spec : String → Bool) (rel : String) :
    ∀ es : Entries, wfEntries es = true →
      treeEntries spec rel (stripGitignoreE es) = treeEntries spec rel es
  | .nil, _ => rfl
  | .cons n d rest, hwf => by
      rw [wfEntries, Bool.and_eq_true, Bool.and_eq_true] at hwf
      obtain ⟨⟨hn, hd⟩, hrest⟩ := hwf
      rw [stripGitignoreE, treeEntries, treeEntries]
      congr 1
      · by_cases hs : spec (childPath rel n ++ "/") = true
        · simp [hs]
        · rw [if_neg hs, if_neg hs, treeFrom_strip spec (childPath rel n) n d hd]
      · exact treeEntries_strip spec rel rest hrest

end

/-- C9: every file whose base name is `.gitignore`, at any depth of the
tree, is excluded from both the tree text and the collected file list,
independently of the ignore patterns: no collected path has base name
`.gitignore`, and both outputs are unchanged when all `.gitignore` files
are removed from the tree beforehand. -/
theorem gitignore_always_excluded (spec : String → Bool) (root : FSDir)
    (hwf : wfDir root = true) :
    (∀ p ∈ collect_files spec root, baseName p ≠ ".gitignore") ∧
    collect_files spec root = collect_files spec (stripGitignore root) ∧
    build_project_tree spec root
      = build_project_tree spec (stripGitignore root) := by
  refine ⟨fun p hp => collectFrom_baseName spec "" root p hp, ?_, ?_⟩
  · exact (collectFrom_strip spec "" root hwf).symm
  · unfold build_project_tree
    rw [treeFrom_strip spec "" "." root hwf]

/-- Witness for C9 on a tree with `.gitignore` files at two depths. -/
theorem gitignore_always_excluded_witness :
    wfDir exTree = true ∧
    ((∀ p ∈ collect_files exSpec exTree, baseName p ≠ ".gitignore") ∧
      collect_files exSpec exTree = collect_files exSpec (stripGitignore exTree) ∧
      build_project_tree exSpec exTree
        = build_project_tree exSpec (stripGitignore exTree)) :=
  ⟨by decide, gitignore_always_excluded exSpec exTree (by decide)⟩

mutual

theorem treeFrom_docTree (spec : String → Bool) :
    ∀ (d : FSDir) (rel name : String), wfDir d = true →
      treeFrom spec rel name d = docTreeDir spec (levelOf rel) rel name d
  | .mk ds files, rel, name, hwf => by
      rw [wfDir, Bool.and_eq_true, Bool.and_eq_true] at hwf
      obtain ⟨⟨hall, hnodup⟩, hents⟩ := hwf
      rw [treeFrom, docTreeDir, treeEntries_docTree spec ds rel hents]

theorem treeEntries_docTree (spec : String → Bool) :
    ∀ (es : Entries) (rel : String), wfEntries es = true →
      treeEntries spec rel es = docTreeEntries spec (levelOf rel + 1) rel es
  | .nil, rel, _ => rfl
  | .cons n d rest, rel, hwf => by
      rw [wfEntries, Bool.and_eq_true, Bool.and_eq_true] at hwf
      obtain ⟨⟨hn, hd⟩, hrest⟩ := hwf
      rw [treeEntries, docTreeEntries]
      congr 1
      · by_cases hs : spec (childPath rel n ++ "/") = true
        · simp [hs]
        · rw [if_neg hs, if_neg hs,
            treeFrom_docTree spec d (childPath rel n) n hd,
            levelOf_childPath rel hn]
      · exact treeEntries_docTree spec rest rel hrest

end

/-- C8: the tree text is exactly the specified rendering: the root at
depth 0 displayed as `.`, one line per visited directory (its name plus
`/`, indented by `4 * depth` spaces) immediately followed by one line per
included file (indented by `4 * (depth + 1)` spaces), newline-joined in
pre-order traversal order, where depth is the structural nesting depth
(the source computes it as the separator count of the relative path plus
one, which this theorem proves equivalent). -/
theorem tree_rendering_format (spec : String → Bool) (root : FSDir)
    (hwf : wfDir root = true) :
    build_project_tree spec root
      = pyJoin "\n" (docTreeDir spec 0 "" "." root) := by
  unfold build_project_tree
  rw [treeFrom_docTree spec root "" "." hwf,
    show levelOf "" = 0 from rfl]

/-- Witness for C8 on the concrete tree. -/
theorem tree_rendering_format_witness :
    wfDir exTree = true ∧
    build_project_tree exSpec exTree
      = pyJoin "\n" (docTreeDir exSpec 0 "" "." exTree) :=
  ⟨by decide, tree_rendering_format exSpec exTree (by decide)⟩

mutual

theorem collectFrom_replace (spec : String → Bool) :
    ∀ (d : FSDir) (rel : String) (segs : List String) (D2 : FSDir),
      segs ≠ [] → spec (joinAll rel segs ++ "/") = true →
      collectFrom spec rel (replaceAt d segs D2) = collectFrom spec rel d
  | .mk ds files, rel, [], D2, hne, _ => absurd rfl hne
  | .mk ds files, rel, n :: rest, D2, _, hs => by
      rw [replaceAt, collectFrom, collectFrom]
      congr 1
      exact collectEntries_replace spec ds rel n rest D2 hs

theorem collectEntries_replace (spec : String → Bool) :
    ∀ (es : Entries) (rel n : String) (rest : List String) (D2 : FSDir),
      spec (joinAll rel (n :: rest) ++ "/") = true →
      collectEntries spec rel (replaceAtE es n rest D2)
        = collectEntries spec rel es
  | .nil, _, _, _, _, _ => rfl
  | .cons m sub tail, rel, n, rest, D2, hs => by
      rw [replaceAtE]
      by_cases hmn : m = n
      · subst hmn
        rw [if_pos rfl, collectEntries, collectEntries]
        congr 1
        by_cases hp : spec (childPath rel m ++ "/") = true
        · simp [hp]
        · rw [if_neg hp, if_neg hp]
          cases rest with
          | nil =>
            rw [joinAll_cons, joinAll] at hs
            exact absurd hs hp
          | cons r rs =>
            rw [joinAll_cons] at hs
            rw [collectFrom_replace spec sub (childPath rel m) (r :: rs) D2
              (by simp) hs]
      · rw [if_neg hmn, collectEntries, collectEntries]
        congr 1
        exact collectEntries_replace spec tail rel n rest D2 hs

end

mutual

theorem treeFrom_replace (spec : String → Bool) :
    ∀ (d : FSDir) (rel name : String) (segs : List String) (D2 : FSDir),
      segs ≠ [] → spec (joinAll rel segs ++ "/") = true →
      treeFrom spec rel name (replaceAt d segs D2) = treeFrom spec rel name d
  | .mk ds files, rel, name, [], D2, hne, _ => absurd rfl hne
  | .mk ds files, rel, name, n :: rest, D2, _, hs => by
      rw [replaceAt, treeFrom, treeFrom,
        treeEntries_replace spec ds rel n rest D2 hs]

theorem treeEntries_replace (spec : String → Bool) :
    ∀ (es : Entries) (rel n : String) (rest : List String) (D2 : FSDir),
      spec (joinAll rel (n :: rest) ++ "/") = true →
      treeEntries spec rel (replaceAtE es n rest D2) = treeEntries spec rel es
  | .nil, _, _, _, _, _ => rfl
  | .cons m sub tail, rel, n, rest, D2, hs => by
      rw [replaceAtE]
      by_cases hmn : m = n
      · subst hmn
        rw [if_pos rfl, treeEntries, treeEntries]
        congr 1
        by_cases hp : spec (childPath rel m ++ "/") = true
        · simp [hp]
        · rw [if_neg hp, if_neg hp]
          cases rest with
          | nil =>
            rw [joinAll_cons, joinAll] at hs
            exact absurd hs hp
          | cons r rs =>
            rw [joinAll_cons] at hs
            rw [treeFrom_replace spec sub (childPath rel m) m (r :: rs) D2
              (by simp) hs]
      · rw [if_neg hmn, treeEntries, treeEntries]
        congr 1
        exact treeEntries_replace spec tail rel n rest D2 hs

end

theorem isPre_iff {u v : List Char} : isPre u v = true ↔ ∃ t, u ++ t = v := by
  induction u generalizing v with
  | nil => simp [isPre]
  | cons a as ih =>
    cases v with
    | nil =>
      simp [isPre]
    | cons b bs =>
      rw [isPre, Bool.and_eq_true, decide_eq_true_eq, ih]
      constructor
      · rintro ⟨rfl, t, rfl⟩
        exact ⟨t, rfl⟩
      · rintro ⟨t, he⟩
        injection he with h1 h2
        exact ⟨h1, t, h2⟩

theorem seg_slash_cancel {x y : String} {t r : List Char}
    (hx : '/' ∉ x.data) (hy : '/' ∉ y.data)
    (h : x.data ++ '/' :: t = y.data ++ '/' :: r) : x = y ∧ t = r := by
  have h1 := congrArg (List.takeWhile notSlash) h
  rw [takeWhile_append_slash hx, takeWhile_append_slash hy] at h1
  have h2 := congrArg (List.dropWhile notSlash) h
  rw [dropWhile_append_slash hx, dropWhile_append_slash hy] at h2
  exact ⟨String.ext h1, by injection h2⟩

theorem joinSegs_cons_data {x : String} {a : List String} (ha : a ≠ []) :
    (joinSegs (x :: a)).data = x.data ++ '/' :: (joinSegs a).data := by
  cases a with
  | nil => exact absurd rfl ha
  | cons y ys =>
    show (x ++ "/" ++ joinSegs (y :: ys)).data = _
    simp [String.data_append]

theorem prefix_segs :
    ∀ (a b : List String), (∀ x ∈ a, goodName x = true) →
      (∀ x ∈ b, goodName x = true) →
      isPre (joinSegs a ++ "/").data (joinSegs b).data = true →
      a ≠ [] →
      a.length < b.length ∧ b.take a.length = a
  | [], _, _, _, _, hne => absurd rfl hne
  | x :: a2, b, hga, hgb, hpre, _ => by
      obtain ⟨t, ht⟩ := isPre_iff.mp hpre
      have hgx : goodName x = true := hga x (by simp)
      rcases goodName_iff.mp hgx with ⟨-, hxs⟩
      cases b with
      | nil =>
        exfalso
        simp only [joinSegs] at ht
        simp [String.data_append] at ht
      | cons y ys =>
        have hgy : goodName y = true := hgb y (by simp)
        rcases goodName_iff.mp hgy with ⟨-, hys⟩
        cases ys with
        | nil =>
          exfalso
          have hsl : '/' ∈ (joinSegs (x :: a2) ++ "/").data := by
            rw [String.data_append]
            simp [show ("/" : String).data = ['/'] from rfl]
          apply hys
          rw [show joinSegs [y] = y from rfl] at ht
          rw [← ht]
          exact List.mem_append_left t hsl
        | cons y2 ys2 =>
          rw [joinSegs_cons_data (a := y2 :: ys2) (by simp)] at ht
          cases a2 with
          | nil =>
            have he : x.data ++ '/' :: t
                = y.data ++ '/' :: (joinSegs (y2 :: ys2)).data := by
              rw [← ht, show joinSegs [x] = x from rfl, String.data_append]
              simp [show ("/" : String).data = ['/'] from rfl]
            obtain ⟨hxy, -⟩ := seg_slash_cancel hxs hys he
            refine ⟨by simp, ?_⟩
            simp [hxy]
          | cons x2 a3 =>
            have e1 : (joinSegs (x :: x2 :: a3) ++ "/").data
                = x.data ++ '/' :: (joinSegs (x2 :: a3) ++ "/").data := by
              rw [String.data_append, joinSegs_cons_data (a := x2 :: a3) (by simp),
                String.data_append]
              simp [show ("/" : String).data = ['/'] from rfl]
            have he : x.data ++ '/' :: ((joinSegs (x2 :: a3) ++ "/").data ++ t)
                = y.data ++ '/' :: (joinSegs (y2 :: ys2)).data := by
              rw [← ht, e1]
              simp
            obtain ⟨hxy, he2⟩ := seg_slash_cancel hxs hys he
            have hpre2 : isPre (joinSegs (x2 :: a3) ++ "/").data
                (joinSegs (y2 :: ys2)).data = true :=
              isPre_iff.mpr ⟨t, he2⟩
            obtain ⟨hlen, htake⟩ := prefix_segs (x2 :: a3) (y2 :: ys2)
              (fun z hz => hga z (by simp [hz]))
              (fun z hz => hgb z (by simp [hz]))
              hpre2 (by simp)
            constructor
            · simpa using Nat.succ_lt_succ hlen
            · simp only [List.length_cons, List.take_succ_cons] at htake ⊢
              rw [htake, hxy]

mutual

theorem collectFrom_shape (spec : String → Bool) :
    ∀ (d : FSDir) (rel p : String), wfDir d = true →
      p ∈ collectFrom spec rel d →
      ∃ segs : List String, segs ≠ [] ∧ (∀ x ∈ segs, goodName x = true) ∧
        p = joinAll rel segs ∧
        (∀ k, 0 < k → k < segs.length →
          spec (joinAll rel (segs.take k) ++ "/") = false)
  | .mk ds files, rel, p, hwf, hp => by
      rw [wfDir, Bool.and_eq_true, Bool.and_eq_true] at hwf
      obtain ⟨⟨hall, hnodup⟩, hents⟩ := hwf
      rw [collectFrom] at hp
      rcases List.mem_append.mp hp with h | h
      · rcases List.mem_map.mp h with ⟨f, hf, rfl⟩
        have hfmem : f ∈ files :=
          (sortFiles_perm files).mem_iff.mp (List.mem_filter.mp hf).1
        have hgood : goodName f = true := by
          simpa using List.all_eq_true.mp hall f hfmem
        refine ⟨[f], by simp, by simpa using hgood,
          by simp [joinAll_cons, joinAll], ?_⟩
        intro k hk1 hk2
        simp at hk2
        omega
      · obtain ⟨n, segs2, -, hgn, -, hg2, hns, hpeq, hcond⟩ :=
          collectEntries_shape spec ds rel p hents h
        exact ⟨n :: segs2, by simp, by
          intro x hx
          rcases List.mem_cons.mp hx with rfl | hx2
          · exact hgn
          · exact hg2 x hx2, hpeq, hcond⟩

theorem collectEntries_shape (spec : String → Bool) :
    ∀ (es : Entries) (rel p : String), wfEntries es = true →
      p ∈ collectEntries spec rel es →
      ∃ (n : String) (segs2 : List String),
        n ∈ entryNames es ∧ goodName n = true ∧ segs2 ≠ [] ∧
        (∀ x ∈ segs2, goodName x = true) ∧
        spec (childPath rel n ++ "/") = false ∧
        p = joinAll rel (n :: segs2) ∧
        (∀ k, 0 < k → k < (n :: segs2).length →
          spec (joinAll rel ((n :: segs2).take k) ++ "/") = false)
  | .nil, rel, p, _, hp => by simp [collectEntries] at hp
  | .cons m sub tail, rel, p, hwf, hp => by
      rw [wfEntries, Bool.and_eq_true, Bool.and_eq_true] at hwf
      obtain ⟨⟨hm, hsub⟩, htail⟩ := hwf
      rw [collectEntries] at hp
      rcases List.mem_append.mp hp with h | h
      · by_cases hs : spec (childPath rel m ++ "/") = true
        · simp [hs] at h
        · rw [if_neg hs] at h
          have hsf : spec (childPath rel m ++ "/") = false :=
            Bool.eq_false_iff.mpr hs
          obtain ⟨segs, hne, hg, hpeq, hcond⟩ :=
            collectFrom_shape spec sub (childPath rel m) p hsub h
          refine ⟨m, segs, by simp [entryNames], hm, hne, hg,
            hsf, by rw [hpeq, joinAll_cons], ?_⟩
          intro k hk1 hk2
          match k, hk1 with
          | 1, _ =>
            have e : (m :: segs).take 1 = [m] := by simp
            rw [e, show joinAll rel [m] = childPath rel m by
              rw [joinAll_cons]; rfl]
            exact hsf
          | j + 2, _ =>
            have e : (m :: segs).take (j + 2) = m :: segs.take (j + 1) := by
              simp
            rw [e, joinAll_cons]
            apply hcond (j + 1) (by omega)
            simp at hk2
            omega
      · obtain ⟨n, segs2, hmem, hgn, hne2, hg2, hns, hpeq, hcond⟩ :=
          collectEntries_shape spec tail rel p htail h
        exact ⟨n, segs2, by simp [entryNames, hmem], hgn, hne2, hg2, hns, hpeq,
          hcond⟩

end

mutual

theorem dirAt_goodD :
    ∀ (d : FSDir) (segs : List String) (D : FSDir), wfDir d = true →
      dirAt d segs = some D → ∀ x ∈ segs, goodName x = true
  | _, [], _, _, _ => by simp
  | .mk ds files, n :: rest, D, hwf, hat => by
      rw [wfDir, Bool.and_eq_true, Bool.and_eq_true] at hwf
      obtain ⟨⟨hall, hnodup⟩, hents⟩ := hwf
      rw [dirAt] at hat
      obtain ⟨hgn, sub, hwsub, hatsub⟩ := dirAt_goodE ds n rest D hents hat
      intro x hx
      rcases List.mem_cons.mp hx with rfl | hx2
      · exact hgn
      · exact dirAt_goodD sub rest D hwsub hatsub x hx2

theorem dirAt_goodE :
    ∀ (es : Entries) (n : String) (rest : List String) (D : FSDir),
      wfEntries es = true → dirAtE es n rest = some D →
      goodName n = true ∧ ∃ sub, wfDir sub = true ∧ dirAt sub rest = some D
  | .nil, n, rest, D, _, hat => by simp [dirAtE] at hat
  | .cons m sub tail, n, rest, D, hwf, hat => by
      rw [wfEntries, Bool.and_eq_true, Bool.and_eq_true] at hwf
      obtain ⟨⟨hm, hsub⟩, htail⟩ := hwf
      rw [dirAtE] at hat
      by_cases hmn : m = n
      · rw [if_pos hmn] at hat
        exact ⟨hmn ▸ hm, sub, hsub, hat⟩
      · rw [if_neg hmn] at hat
        exact dirAt_goodE tail n rest D htail hat

end

/-- C2: if the directory at path `segs` matches the pattern set (with its
trailing separator appended), then no path under it ever appears in the
collected file list — even when that path individually does not match the
matcher (e.g. it matches a negation pattern, i.e. `spec` is `false` on it;
`spec` here is arbitrary) — and both the tree text and the file list are
invariant under replacing the excluded subtree's entire contents:
the filtering happens before recursion, so the excluded subtree is never
visited. -/
theorem excluded_dir_contents_never_output
    (spec : String → Bool) (root D D2 : FSDir) (segs : List String)
    (P : String)
    (hwf : wfDir root = true)
    (hat : dirAt root segs = some D)
    (hne : segs ≠ [])
    (hmatch : spec (joinSegs segs ++ "/") = true)
    (hpre : isPre (joinSegs segs ++ "/").data P.data = true) :
    P ∉ collect_files spec root ∧
    collect_files spec root = collect_files spec (replaceAt root segs D2) ∧
    build_project_tree spec root
      = build_project_tree spec (replaceAt root segs D2) := by
  have hgs : ∀ x ∈ segs, goodName x = true := dirAt_goodD root segs D hwf hat
  have hmatch0 : spec (joinAll "" segs ++ "/") = true := by
    rw [joinAll_nil_rel hgs]
    exact hmatch
  refine ⟨?_, ?_, ?_⟩
  · intro hmem
    obtain ⟨psegs, hpne, hpgood, hpeq, hprune⟩ :=
      collectFrom_shape spec root "" P hwf hmem
    rw [hpeq, joinAll_nil_rel hpgood] at hpre
    obtain ⟨hlen, htake⟩ := prefix_segs segs psegs hgs hpgood hpre hne
    have hk0 : 0 < segs.length := List.length_pos.mpr hne
    have hcond := hprune segs.length hk0 hlen
    rw [htake, joinAll_nil_rel hgs, hmatch] at hcond
    exact absurd hcond (by simp)
  · exact (collectFrom_replace spec root "" segs D2 hne hmatch0).symm
  · unfold build_project_tree
    rw [treeFrom_replace spec root "" "." segs D2 hne hmatch0]

/-- Witness for C2: the `build/` subtree of the concrete tree is pruned, so
`build/keep.txt` is not collected and the outputs do not change when the
contents of `build/` are replaced. -/
theorem excluded_dir_contents_never_output_witness :
    wfDir exTree = true ∧
    dirAt exTree ["build"] = some (FSDir.mk Entries.nil ["keep.txt"]) ∧
    (["build"] : List String) ≠ [] ∧
    exSpec (joinSegs ["build"] ++ "/") = true ∧
    isPre (joinSegs ["build"] ++ "/").data ("build/keep.txt").data = true ∧
    ("build/keep.txt" ∉ collect_files exSpec exTree ∧
      collect_files exSpec exTree
        = collect_files exSpec
            (replaceAt exTree ["build"] (FSDir.mk Entries.nil ["x.txt"])) ∧
      build_project_tree exSpec exTree
        = build_project_tree exSpec
            (replaceAt exTree ["build"] (FSDir.mk Entries.nil ["x.txt"]))) :=
  ⟨by decide, rfl, by decide, by decide, by decide,
   excluded_dir_contents_never_output exSpec exTree
     (FSDir.mk Entries.nil ["keep.txt"]) (FSDir.mk Entries.nil ["x.txt"])
     ["build"] "build/keep.txt" (by decide) rfl (by decide) (by decide)
     (by decide)⟩

theorem endsWithSlash_dirLine (k : Nat) (name : String) :
    endsWithSlash (indent k ++ name ++ "/") = true := by
  unfold endsWithSlash
  rw [String.data_append, show ("/" : String).data = ['/'] from rfl,
    List.getLast?_concat]
  rfl

theorem endsWithSlash_fileLine (k : Nat) {f : String}
    (hf : goodName f = true) : endsWithSlash (indent k ++ f) = false := by
  rcases goodName_iff.mp hf with ⟨hne, hns⟩
  unfold endsWithSlash
  rw [String.data_append, List.getLast?_append,
    List.getLast?_eq_getLast f.data hne]
  have hmem := List.getLast_mem hne
  have hsl : f.data.getLast hne ≠ '/' := fun he => hns (he ▸ hmem)
  simp [hsl]

/-- The rendering applied to a collected path inside the tree text. -/
theorem treeFileLine_eq (rel : String) {f : String} (hf : goodName f = true) :
    indent (levelOf rel + 1) ++ f
      = indent (levelOf (childPath rel f)) ++ baseName (childPath rel f) := by
  rw [levelOf_childPath rel hf, baseName_childPath rel hf]

mutual

theorem treeFrom_files (spec : String → Bool) :
    ∀ (d : FSDir) (rel name : String), wfDir d = true →
      (treeFrom spec rel name d).filter (fun l => !endsWithSlash l)
        = (collectFrom spec rel d).map
            (fun p => indent (levelOf p) ++ baseName p)
  | .mk ds files, rel, name, hwf => by
      rw [wfDir, Bool.and_eq_true, Bool.and_eq_true] at hwf
      obtain ⟨⟨hall, hnodup⟩, hents⟩ := hwf
      rw [treeFrom, collectFrom]
      rw [List.filter_cons_of_neg (by simp [endsWithSlash_dirLine])]
      rw [List.filter_append, List.map_append]
      congr 1
      · have hmemgood : ∀ f ∈ includedFiles spec rel files, goodName f = true := by
          intro f hf
          have hfmem : f ∈ files :=
            (sortFiles_perm files).mem_iff.mp (List.mem_filter.mp hf).1
          simpa using List.all_eq_true.mp hall f hfmem
        rw [List.filter_eq_self.mpr (by
          intro a ha
          rcases List.mem_map.mp ha with ⟨f, hf, rfl⟩
          simp [endsWithSlash_fileLine _ (hmemgood f hf)])]
        rw [List.map_map]
        apply List.map_congr_left
        intro f hf
        exact treeFileLine_eq rel (hmemgood f hf)
      · exact treeEntries_files spec ds rel hents

theorem treeEntries_files (spec : String → Bool) :
    ∀ (es : Entries) (rel : String), wfEntries es = true →
      (treeEntries spec rel es).filter (fun l => !endsWithSlash l)
        = (collectEntries spec rel es).map
            (fun p => indent (levelOf p) ++ baseName p)
  | .nil, rel, _ => rfl
  | .cons n d rest, rel, hwf => by
      rw [wfEntries, Bool.and_eq_true, Bool.and_eq_true] at hwf
      obtain ⟨⟨hn, hd⟩, hrest⟩ := hwf
      rw [treeEntries, collectEntries, List.filter_append, List.map_append]
      congr 1
      · by_cases hs : spec (childPath rel n ++ "/") = true
        · simp [hs]
        · rw [if_neg hs, if_neg hs]
          exact treeFrom_files spec d (childPath rel n) n hd
      · exact treeEntries_files spec rest rel hrest

end

instance : DecidableRel lexWithin := fun p q => by
  unfold lexWithin
  infer_instance

theorem ne_of_data_length {s t : String} (h : s.data.length < t.data.length) :
    s ≠ t :=
  fun he => by rw [he] at h; exact Nat.lt_irrefl _ h

theorem joinAll_head_ne (rel : String) {m n : String} (u v : List String)
    (hgm : goodName m = true) (hgn : goodName n = true)
    (hgu : ∀ x ∈ u, goodName x = true) (hgv : ∀ x ∈ v, goodName x = true)
    (hmn : m ≠ n) :
    joinAll rel (m :: u) ≠ joinAll rel (n :: v) := by
  intro h
  by_cases hr : rel = ""
  · subst hr
    rw [joinAll_nil_rel (by
        intro x hx
        rcases List.mem_cons.mp hx with rfl | h2
        exacts [hgm, hgu x h2]),
      joinAll_nil_rel (by
        intro x hx
        rcases List.mem_cons.mp hx with rfl | h2
        exacts [hgn, hgv x h2])] at h
    exact joinSegs_head_ne u v hgm hgn hmn h
  · rw [joinAll_ne rel hr (m :: u) (by simp),
      joinAll_ne rel hr (n :: v) (by simp)] at h
    have h2 := congrArg String.data h
    simp only [String.data_append, List.append_assoc,
      List.append_cancel_left_eq] at h2
    exact joinSegs_head_ne u v hgm hgn hmn (String.ext (by
      simpa [show ("/" : String).data = ['/'] from rfl] using h2))

theorem dirOf_shape (rel m : String) (segs : List String) (hne : segs ≠ [])
    (hgm : goodName m = true) (hg : ∀ x ∈ segs, goodName x = true) :
    ∃ u, (∀ x ∈ u, goodName x = true) ∧
      dirOf (joinAll rel (m :: segs)) = joinAll rel (m :: u) := by
  refine ⟨segs.dropLast, ?_, ?_⟩
  · intro x hx
    exact hg x ((List.dropLast_sublist segs).subset hx)
  · conv_lhs => rw [show m :: segs
        = (m :: segs.dropLast) ++ [segs.getLast hne] by
      rw [show (m :: segs.dropLast) ++ [segs.getLast hne]
          = m :: (segs.dropLast ++ [segs.getLast hne]) from rfl,
        List.dropLast_append_getLast hne]]
    exact dirOf_joinAll rel (m :: segs.dropLast)
      (hg _ (List.getLast_mem hne))
      (by
        intro x hx
        rcases List.mem_cons.mp hx with rfl | h2
        · exact hgm
        · exact hg x ((List.dropLast_sublist segs).subset h2))

mutual

theorem collectFrom_pairwise (spec : String → Bool) :
    ∀ (d : FSDir) (rel : String), wfDir d = true →
      (collectFrom spec rel d).Pairwise lexWithin
  | .mk ds files, rel, hwf => by
      rw [wfDir, Bool.and_eq_true, Bool.and_eq_true] at hwf
      obtain ⟨⟨hall, hnodup⟩, hents⟩ := hwf
      have hmemgood : ∀ f ∈ includedFiles spec rel files, goodName f = true := by
        intro f hf
        have hfmem : f ∈ files :=
          (sortFiles_perm files).mem_iff.mp (List.mem_filter.mp hf).1
        simpa using List.all_eq_true.mp hall f hfmem
      rw [collectFrom, List.pairwise_append]
      refine ⟨?_, collectEntries_pairwise spec ds rel hents hnodup, ?_⟩
      · rw [List.pairwise_map]
        have hsorted : (includedFiles spec rel files).Pairwise
            (fun a b => strLe a b = true) :=
          (sortFiles_sorted files).filter _
        refine hsorted.imp_of_mem ?_
        intro a b ha hb hab
        intro hdir
        rw [baseName_childPath rel (hmemgood a ha),
          baseName_childPath rel (hmemgood b hb)]
        exact hab
      · intro p hp q hq
        rcases List.mem_map.mp hp with ⟨a, ha, rfl⟩
        obtain ⟨n, segs2, -, hgn, hne2, hg2, -, hqe, -⟩ :=
          collectEntries_shape spec ds rel q hents hq
        intro hdir
        exfalso
        rw [dirOf_childPath rel (hmemgood a ha)] at hdir
        obtain ⟨u, hgu, hdq⟩ := dirOf_shape rel n segs2 hne2 hgn hg2
        rw [hqe, hdq] at hdir
        exact ne_of_data_length (joinAll_longer u rel hgn hgu) hdir

theorem collectEntries_pairwise (spec : String → Bool) :
    ∀ (es : Entries) (rel : String), wfEntries es = true →
      nodupNames (entryNames es) = true →
      (collectEntries spec rel es).Pairwise lexWithin
  | .nil, rel, _, _ => List.Pairwise.nil
  | .cons m sub tail, rel, hwf, hnodup => by
      rw [wfEntries, Bool.and_eq_true, Bool.and_eq_true] at hwf
      obtain ⟨⟨hm, hsub⟩, htail⟩ := hwf
      rw [show nodupNames (entryNames (.cons m sub tail))
          = (!(entryNames tail).contains m && nodupNames (entryNames tail))
          from rfl, Bool.and_eq_true] at hnodup
      obtain ⟨hmnot, hnodup2⟩ := hnodup
      have hmnot2 : m ∉ entryNames tail := by
        intro hmem
        rw [Bool.not_eq_true'] at hmnot
        rw [show (entryNames tail).contains m
            = List.elem m (entryNames tail) from rfl,
          List.elem_eq_true_of_mem hmem] at hmnot
        exact absurd hmnot (by simp)
      rw [collectEntries, List.pairwise_append]
      refine ⟨?_, collectEntries_pairwise spec tail rel htail hnodup2, ?_⟩
      · by_cases hs : spec (childPath rel m ++ "/") = true
        · simp [hs]
        · rw [if_neg hs]
          exact collectFrom_pairwise spec sub (childPath rel m) hsub
      · intro p hp q hq
        by_cases hs : spec (childPath rel m ++ "/") = true
        · rw [if_pos hs] at hp
          simp at hp
        · rw [if_neg hs] at hp
          obtain ⟨segsP, hneP, hgP, hpe, -⟩ :=
            collectFrom_shape spec sub (childPath rel m) p hsub hp
          obtain ⟨n, segsQ, hmemQ, hgn, hneQ, hgQ, -, hqe, -⟩ :=
            collectEntries_shape spec tail rel q htail hq
          intro hdir
          exfalso
          have hmn : m ≠ n := fun he => hmnot2 (he ▸ hmemQ)
          have hpe2 : p = joinAll rel (m :: segsP) := by
            rw [hpe, joinAll_cons]
          obtain ⟨u1, hgu1, hd1⟩ := dirOf_shape rel m segsP hneP hm hgP
          obtain ⟨u2, hgu2, hd2⟩ := dirOf_shape rel n segsQ hneQ hgn hgQ
          rw [hpe2, hd1, hqe, hd2] at hdir
          exact joinAll_head_ne rel u1 u2 hm hgn hgu1 hgu2 hmn hdir

end

/-- C3: the sequence of file lines of the tree text is exactly the
collected file list rendered line by line (same files, same order:
`build_project_tree` and `collect_files` apply identical filtering in
identical traversal order), and within each directory the included file
names appear in ascending lexicographic order. -/
theorem tree_files_agree_with_collect (spec : String → Bool) (root : FSDir)
    (hwf : wfDir root = true) :
    build_project_tree spec root = pyJoin "\n" (treeFrom spec "" "." root) ∧
    (treeFrom spec "" "." root).filter (fun l => !endsWithSlash l)
      = (collect_files spec root).map
          (fun p => indent (levelOf p) ++ baseName p) ∧
    (collect_files spec root).Pairwise lexWithin :=
  ⟨rfl, treeFrom_files spec root "" "." hwf,
   collectFrom_pairwise spec root "" hwf⟩

/-- Witness for C3 on the concrete tree. -/
theorem tree_files_agree_with_collect_witness :
    wfDir exTree = true ∧
    (build_project_tree exSpec exTree
        = pyJoin "\n" (treeFrom exSpec "" "." exTree) ∧
      (treeFrom exSpec "" "." exTree).filter (fun l => !endsWithSlash l)
        = (collect_files exSpec exTree).map
            (fun p => indent (levelOf p) ++ baseName p) ∧
      (collect_files exSpec exTree).Pairwise lexWithin) :=
  ⟨by decide, tree_files_agree_with_collect exSpec exTree (by decide)⟩

end Repo2Text
